import Mathlib

/-!
# Verification of the lepl matcher core (`src/lepl/match.py`)

A matcher applied to a stream yields a lazy sequence of `(result_list,
remaining_stream)` attempts.  We embed matchers semantically: a matcher is a
function from a stream to the (finite) list of attempts it yields, in yield
order.  Streams for the plain-string case are `List Char`; result values are
Python strings, embedded as `List Char`.  The `@managed` decorator
(`lepl/resources.py`, resource teardown only per spec section 4.1) and the
laziness of Python generators are transparent to the attempt sequence and are
not modelled; each definition below computes the full sequence of attempts the
corresponding generator would yield.

Where a generator raises an exception (Python errors such as
`UnboundLocalError` or `TypeError`) the evaluator returns `none` or an error
flag, as documented at each definition.
-/

namespace Lepl

/-- One match attempt: the `(result_list, remaining_stream)` pair yielded by a
matcher.  `σ` is the stream type, `α` the type of one result value. -/
abbrev Attempt (σ α : Type) := List α × σ

/-- The semantics of a matcher: the finite list of attempts its generator
yields on a given stream, in yield order. -/
abbrev MatchF (σ α : Type) := σ → List (Attempt σ α)

/-! ## Terminal matchers -/

/-- `Any.__call__` (match.py 708-716): on a non-empty stream whose head passes
the optional restriction, yield `([stream[0]], stream[1:])` once.  The Python
test is `stream and (not self.__restrict or stream[0] in self.__restrict)`:
a restriction that is `None` *or empty* (falsy) accepts any token.  The result
value `stream[0]` is a one-character string, embedded as `[c]`. -/
def anyEval (restrict : Option (List Char)) : MatchF (List Char) (List Char) :=
  fun s =>
    match s, restrict with
    | [], _ => []
    | c :: rest, none => [([[c]], rest)]
    | c :: rest, some l => if l.isEmpty || l.contains c then [([[c]], rest)] else []

/-- `Literal.__call__` (match.py 733-746): if the length-N prefix of the
stream equals the text, yield `([text], stream[N:])` once.  (The
`except IndexError` guard never fires for string streams.) -/
def litEval (text : List Char) : MatchF (List Char) (List Char) :=
  fun s =>
    if s.take text.length = text then [([text], s.drop text.length)] else []

/-- `Empty.__call__` (match.py 759-766): always yield `([], stream)` once. -/
def emptyEval {σ α : Type} : MatchF σ α := fun s => [([], s)]

/-! ## Sequential composition (`And`) -/

/-- The frame loop of `And.__call__` (match.py 623-648), with the accumulated
result made explicit: a frame holds the results accumulated so far (`acc`),
the generator of the current child, and the remaining children.  For each
attempt of the current child the machine either yields (no children left) or
descends into the next child; the LIFO stack makes this a depth-first product,
right-deep: later children are exhausted before the current child is advanced. -/
def andRest {σ α : Type} : List (MatchF σ α) → List α → σ → List (Attempt σ α)
  | [], acc, s => [(acc, s)]
  | m :: rest, acc, s => (m s).flatMap fun p => andRest rest (acc ++ p.1) p.2

/-- `And.__call__` (match.py 623-648).  Note the `if self.__matchers:` guard:
with zero children the generator body is skipped entirely and *no* attempt is
yielded. -/
def andEval {σ α : Type} (ms : List (MatchF σ α)) : MatchF σ α :=
  fun s =>
    match ms with
    | [] => []
    | m :: rest => andRest (m :: rest) [] s

/-! ## Alternation (`Or`) -/

/-- `Or.__call__` (match.py 672-683): for each child in order, relay every
attempt of the child applied to the original stream.  (The `self._warn('or')`
call is diagnostic only.) -/
def orEval {σ α : Type} : List (MatchF σ α) → MatchF σ α
  | [] => fun _ => []
  | m :: rest => fun s => m s ++ orEval rest s

/-! ## Lookahead -/

/-- `Lookahead.__call__` (match.py 789-803).  Negated: iterate the child; if
it yields anything, return (no attempt); otherwise yield `([], stream)`.
Not negated: yield `([], stream)` once as soon as the child yields its first
attempt; nothing otherwise.  No input is ever consumed. -/
def lookEval {σ α : Type} (m : MatchF σ α) (negated : Bool) : MatchF σ α :=
  fun s =>
    if negated then
      if (m s).isEmpty then [([], s)] else []
    else
      if (m s).isEmpty then [] else [([], s)]

/-! ## The `Apply` family -/

/-- `Apply.__call__` with `raw=True` (match.py 873-883): relay the child's
attempts, transforming the result list and leaving the stream untouched.
`Map`, `Add`, `Drop`, `Substitute` and `Name` (match.py 1136-1185) are all
`Apply(..., raw=True)` instances with particular functions. -/
def applyRaw {σ α β : Type} (m : MatchF σ α) (f : List α → List β) : MatchF σ β :=
  fun s => (m s).map fun p => (f p.1, p.2)

/-- The `add` function inside `Add` (match.py 1155-1163): fold the result
values together with `+` (string concatenation here) and wrap the fold in a
singleton list; an empty result list stays empty. -/
def addFn {γ : Type} : List (List γ) → List (List γ)
  | [] => []
  | r :: rest => [rest.foldl (fun a b => a ++ b) r]

/-- `Add(matcher)` (match.py 1149-1164): `Apply(matcher, add, raw=True)`. -/
def addEval {σ γ : Type} (m : MatchF σ (List γ)) : MatchF σ (List γ) :=
  applyRaw m addFn

/-! ## Repetition (`Repeat`)

`Repeat.__call__` (match.py 512-523) dispatches on the direction:
positive to `__breadth_first`, zero to `__depth_first`, negative to
`__exhaustive`.  `self.__first` is the child matcher and `self.__second` is
the matcher used for occurrences after the first (`And(separator, matcher)`
when a separator is present, else the child itself); `self.__matcher(count)`
(match.py 550-557) returns `__first` for count 0 and `__second` otherwise. -/

/-- One queue entry of `Repeat.__with_depth` (match.py 532-548): the number of
occurrences matched so far, the accumulated results, and the current stream. -/
structure QEntry (σ α : Type) where
  count : Nat
  acc : List α
  stream : σ
deriving Repr, DecidableEq

/-- `Repeat.__matcher(count)` (match.py 550-557). -/
def matcherAt {σ α : Type} (first second : MatchF σ α) (c : Nat) : MatchF σ α :=
  if c = 0 then first else second

/-- The yield test of `Repeat.__with_depth` (match.py 544-546):
`count2 >= self._start and (self._stop == None or count2 <= self._stop)`. -/
def yieldCond (start : Nat) (stop : Option Nat) (c : Nat) : Bool :=
  start ≤ c && (match stop with | none => true | some k => c ≤ k)

/-- The re-queue test of `Repeat.__with_depth` (match.py 547):
`self._stop == None or count2 < self._stop`. -/
def carryCond (stop : Option Nat) (c : Nat) : Bool :=
  match stop with | none => true | some k => c < k

/-- The extensions of one queue entry: the body of the `for` loop of
`Repeat.__with_depth` (match.py 542-548) produces, for each attempt
`(value, stream2)` of `self.__matcher(count1)(stream1)`, the candidate
`(count1 + 1, acc1 + value, stream2)`. -/
def qexts {σ α : Type} (first second : MatchF σ α) (e : QEntry σ α) :
    List (QEntry σ α) :=
  (matcherAt first second e.count e.stream).map fun p =>
    ⟨e.count + 1, e.acc ++ p.1, p.2⟩

/-- The extensions of one popped entry that pass the yield test
(match.py 544-546), in the child's attempt order. -/
def yieldsOf {σ α : Type} (first second : MatchF σ α) (start : Nat)
    (stop : Option Nat) (e : QEntry σ α) : List (QEntry σ α) :=
  (qexts first second e).filter fun x => yieldCond start stop x.count

/-- The extensions of one popped entry that are appended back to the queue
(match.py 547-548). -/
def carriedOf {σ α : Type} (first second : MatchF σ α) (stop : Option Nat)
    (e : QEntry σ α) : List (QEntry σ α) :=
  (qexts first second e).filter fun x => carryCond stop x.count

/-- The `while queue:` loop of `Repeat.__with_depth` (match.py 539-548),
with the FIFO queue explicit and fuel bounding the number of `popleft`
iterations (the Python loop runs unboundedly when `stop` is `None`; every
bounded run is reproduced exactly by a sufficiently large fuel, see
`bfsRun_split`).  Each iteration pops the head entry, yields the extensions
passing the yield test (in the child's attempt order) and appends to the queue
the extensions passing the re-queue test. -/
def bfsRun {σ α : Type} (first second : MatchF σ α) (start : Nat)
    (stop : Option Nat) : Nat → List (QEntry σ α) → List (QEntry σ α)
  | 0, _ => []
  | _ + 1, [] => []
  | f + 1, e :: rest =>
      yieldsOf first second start stop e ++
        bfsRun first second start stop f
          (rest ++ carriedOf first second stop e)

/-- One whole round of queue extension: the re-queued extensions of every
entry of `q`, in order. -/
def carriedStep {σ α : Type} (first second : MatchF σ α) (stop : Option Nat)
    (q : List (QEntry σ α)) : List (QEntry σ α) :=
  q.flatMap (carriedOf first second stop)

/-- Fuel sufficient to drain the queue after `L` rounds of extension: the
total number of entries the FIFO ever holds. -/
def qfuel {σ α : Type} (first second : MatchF σ α) (stop : Option Nat) :
    Nat → List (QEntry σ α) → Nat
  | 0, q => q.length
  | l + 1, q =>
      q.length + qfuel first second stop l (carriedStep first second stop q)

/-- `n` rounds of queue extension. -/
def carriedIter {σ α : Type} (first second : MatchF σ α) (stop : Option Nat)
    (q : List (QEntry σ α)) : Nat → List (QEntry σ α)
  | 0 => q
  | n + 1 => carriedStep first second stop (carriedIter first second stop q n)

/-- The yields of `L` rounds of whole-level queue processing (the FIFO

processes level by level; see `bfsRun_levels`). -/
def levelYields {σ α : Type} (first second : MatchF σ α) (start : Nat)
    (stop : Option Nat) : Nat → List (QEntry σ α) → List (QEntry σ α)
  | 0, _ => []
  | l + 1, q =>
      q.flatMap (yieldsOf first second start stop) ++
        levelYields first second start stop l (carriedStep first second stop q)


/-- `Repeat.__with_depth` (match.py 532-548): yield `(0, [], stream)` first
when `start` is 0, then run the queue seeded with `(0, [], stream)`.  The
`levels` argument bounds the number of extension rounds; when
`stop = some k`, `levels = k` reproduces the Python run exactly (the queue
drains by itself: no entry with `count + 1 = k` is re-queued). -/
def withDepthYields {σ α : Type} (first second : MatchF σ α) (start : Nat)
    (stop : Option Nat) (levels : Nat) (s : σ) : List (QEntry σ α) :=
  (if start = 0 then [⟨0, [], s⟩] else []) ++
    bfsRun first second start stop
      (qfuel first second stop (levels + 1) [⟨0, [], s⟩]) [⟨0, [], s⟩]

/-- `Repeat.__breadth_first` (match.py 525-530): drop the depth tags. -/
def breadthFirstEval {σ α : Type} (first second : MatchF σ α) (start : Nat)
    (stop : Option Nat) (levels : Nat) : MatchF σ α :=
  fun s =>
    (withDepthYields first second start stop levels s).map fun e =>
      (e.acc, e.stream)

/-- Insertion into the `all` dictionary of `Repeat.__exhaustive`
(match.py 566-570), modelling Python's insertion-ordered `dict` as an
association list: a new key goes to the back, an existing key's bucket is
extended at its place. -/
def dictInsert {β : Type} : List (Nat × List β) → Nat → β → List (Nat × List β)
  | [], k, v => [(k, [v])]
  | (k', vs) :: rest, k, v =>
      if k' = k then (k', vs ++ [v]) :: rest
      else (k', vs) :: dictInsert rest k v

/-- `Repeat.__exhaustive` (match.py 559-573): bucket every `__with_depth`
yield by its depth in an insertion-ordered dictionary, then yield the buckets
in reverse key-insertion order (`reversed(list(all.keys()))`), each bucket in
its original order. -/
def exhaustiveEval {σ α : Type} (first second : MatchF σ α) (start : Nat)
    (stop : Option Nat) (levels : Nat) : MatchF σ α :=
  fun s =>
    let d := (withDepthYields first second start stop levels s).foldl
      (fun d e => dictInsert d e.count (e.acc, e.stream)) []
    d.reverse.flatMap fun kv => kv.2

/-- One frame's generator loop inside `Repeat.__depth_first`
(match.py 583-597), iterating the listed attempts of the frame's generator.
For each attempt the pushed child frame's subtree runs to completion
(`child`); if that subtree *hangs* (flag `true`), the parent never regains
control, so iteration stops with the attempts yielded so far.  When the
generator is exhausted (`next` raises `StopIteration`, swallowed by the bare
`except`), `onExhaust` applies: the frame either pops with its yield, or —
when the yield test fails — the `while` loop spins on this frame forever
(every further `next` raises `StopIteration` again), yielding nothing more. -/
def dfIter {σ α : Type} (child : List α → σ → List (Attempt σ α) × Bool)
    (onExhaust : List (Attempt σ α) × Bool) (acc : List α) :
    List (Attempt σ α) → List (Attempt σ α) × Bool
  | [] => onExhaust
  | p :: rest =>
      let r := child (acc ++ p.1) p.2
      if r.2 then (r.1, true)
      else
        let r2 := dfIter child onExhaust acc rest
        (r.1 ++ r2.1, r2.2)

/-- The stack recursion of `Repeat.__depth_first` (match.py 575-601), one
frame `(count1, acc1, stream1, generator)` at a time; `fuel` bounds the frame
depth (for `stop = some k` depth `k` is never exceeded; for `stop = none` any
bounded Python run is reproduced by a large enough fuel; the fuel-exhaustion
branch returns the empty truncation and is unreachable in the bounded uses
below).  The result pairs the attempts the generator yields with a flag: when
it is `true` the Python loop never terminates after those attempts (and
yields nothing more); when `false` the generator finishes normally.

When `count1 < stop` (or `stop` is `None`) the frame explores, for every
attempt `(value, stream2)` of its generator in order, the subtree of the
pushed frame `(count1 + 1, acc1 + value, stream2, ...)`; once the generator
is exhausted (`extended` stays false) the frame yields `(acc1, stream1)` and
pops provided `count2 = count1 + 1` passes the yield test — the test uses
`count2`, not `count1`, so a frame holding `count1` occurrences is yielded
whenever `count1 + 1` is within range; when `count2 < start` the test fails
and the loop spins on the frame forever (neither pop nor push), which also
strands every enclosing frame: the hang flag propagates and unexplored
sibling attempts are discarded.

When `count1 = stop` the guard at line 585 is skipped and `count2` retains
its value from the previous loop iteration, which (for a validated
`start ≤ stop`) is the frame's own `count1`: the test passes and the frame
is yielded and popped.  (The false branch of that test, reachable only for
`start > stop`, which the constructor rejects, is again the spinning loop.) -/
def dfGo {σ α : Type} (first second : MatchF σ α) (start : Nat)
    (stop : Option Nat) : Nat → Nat → List α → σ → List (Attempt σ α) × Bool
  | 0, _, _, _ => ([], false)
  | f + 1, c, acc, st =>
      if (match stop with | none => true | some k => decide (c < k)) then
        dfIter (dfGo first second start stop f (c + 1))
          (if yieldCond start stop (c + 1) then ([(acc, st)], false)
           else ([], true))
          acc (matcherAt first second c st)
      else
        if yieldCond start stop c then ([(acc, st)], false) else ([], true)

/-- `Repeat.__depth_first` (match.py 575-601).  `none` models the
`UnboundLocalError` raised on the very first loop iteration when
`stop == 0`: the `count1 < self._stop` guard fails with `count1 = 0`, so
`count2` is referenced at line 594 before any assignment; no attempt is
yielded.  In every other case `count2` is assigned on the first iteration and
the run is the frame recursion `dfGo` started at `(0, [], stream)`: the
attempts actually yielded, with `true` when the loop then spins forever. -/
def depthFirstEval {σ α : Type} (first second : MatchF σ α) (start : Nat)
    (stop : Option Nat) (levels : Nat) :
    σ → Option (List (Attempt σ α) × Bool) :=
  fun s =>
    if stop = some 0 then none
    else
      some (dfGo first second start stop
        (match stop with | some k => k + 1 | none => levels + 1) 0 [] s)

/-- `Repeat.__call__` (match.py 512-523): dispatch on the direction.
`none` propagates a Python error from the selected algorithm; otherwise the
pair lists the attempts yielded, with `true` when the generator then loops
forever (the depth-first hang; the breadth-first and exhaustive runs used
here drain their queue for a bounded `stop` and are truncated by `levels`
rounds when `stop` is `None`, as documented at `withDepthYields`). -/
def repeatEval {σ α : Type} (first second : MatchF σ α) (start : Nat)
    (stop : Option Nat) (direction : Int) (levels : Nat) (s : σ) :
    Option (List (Attempt σ α) × Bool) :=
  if direction > 0 then
    some (breadthFirstEval first second start stop levels s, false)
  else if direction = 0 then depthFirstEval first second start stop levels s
  else some (exhaustiveEval first second start stop levels s, false)

/-- Reference (spec, section 4.5 and testable property 8): the list of all
exactly-`n`-occurrence match sequences — occurrence `i` produced by
`matcherAt first second i` on the stream left by occurrence `i - 1`, results
concatenated — in depth-respecting enumeration order. -/
def exactChains {σ α : Type} (first second : MatchF σ α) (s : σ) :
    Nat → List (Attempt σ α)
  | 0 => [([], s)]
  | n + 1 =>
      (exactChains first second s n).flatMap fun p =>
        (matcherAt first second n p.2).map fun q => (p.1 ++ q.1, q.2)

/-- The leftmost `n`-occurrence prefix from `(acc, st)`: follow the child's
*first* attempt `n` times; `none` when some level has no attempt.  Used to
characterise the depth-first run: a frame at a depth more than one below
`start` never pops, so only this single descent is ever explored. -/
def leftmostPrefix {σ α : Type} (m : MatchF σ α) :
    Nat → List α → σ → Option (List α × σ)
  | 0, acc, st => some (acc, st)
  | n + 1, acc, st =>
      match m st with
      | [] => none
      | p :: _ => leftmostPrefix m n (acc ++ p.1) p.2

/-- The queue entries corresponding to the exactly-`n`-occurrence chains. -/
def chainEntries {σ α : Type} (first second : MatchF σ α) (s : σ) (n : Nat) :
    List (QEntry σ α) :=
  (exactChains first second s n).map fun p => ⟨n, p.1, p.2⟩

/-! ## The numeric sugar matchers (match.py 1220-1282)

`Digit()[1:,...]` parses the `__getitem__` indices (match.py 282-306) to
`Add(Repeat(child, 1, None, 0, None))`; `x[0:1]` (`Optional`, match.py
1103-1107) to `Identity(Repeat(x, 0, 1, 0, None))` — a slice with omitted
step has `step = 0`, i.e. depth-first.  `a + b` is `Add(And(a, b))`
(match.py 40-53) and `a | b` is `Or(a, b)`.  A depth-first `Repeat` with
`stop = None` is given fuel `length + 2`, which exceeds the deepest possible
stack (every occurrence of a sugar child consumes at least one character). -/

/-- String stream / string value matcher. -/
abbrev SMatch := MatchF (List Char) (List Char)

/-- `Repeat(m, start, stop, 0)` on string streams, depth-first, with the fuel
described above, projected to the attempts yielded.  The default of `.getD`
is never exercised (`stop ≠ some 0` in the sugar), and the hang flag is
always `false` here: every sugar repetition has `start ≤ 1`, so the
exhaustion yield test `count2 = count1 + 1 ≥ start` always passes and the
depth-first loop terminates normally. -/
def repDF (m : SMatch) (start : Nat) (stop : Option Nat) : SMatch :=
  fun s => ((depthFirstEval m m start stop (s.length + 1) s).getD
    ([], false)).1

/-- `Optional(matcher)` = `matcher[0:1]` (match.py 1103-1107). -/
def optionalEval (m : SMatch) : SMatch := repDF m 0 (some 1)

/-- `string.digits`. -/
def digitsList : List Char := "0123456789".toList

/-- `Digit()` = `Any(string.digits)` (match.py 1220-1222). -/
def digitEval : SMatch := anyEval (some digitsList)

/-- `UnsignedInteger()` = `Digit()[1:,...]` (match.py 1250-1252). -/
def unsignedIntegerEval : SMatch := addEval (repDF digitEval 1 none)

/-- `SignedInteger()` = `Any('+-')[0:1] + UnsignedInteger()`
(match.py 1255-1257). -/
def signedIntegerEval : SMatch :=
  addEval (andEval [repDF (anyEval (some ['+', '-'])) 0 (some 1),
    unsignedIntegerEval])

/-- `UnsignedFloat('.')` = `(UnsignedInteger() + Optional(Any('.'))) |
(UnsignedInteger()[0:1] + Any('.') + UnsignedInteger())`
(match.py 1263-1266); `+` associates to the left. -/
def unsignedFloatEval : SMatch :=
  orEval
    [addEval (andEval [unsignedIntegerEval, optionalEval (anyEval (some ['.']))]),
     addEval (andEval
       [addEval (andEval [repDF unsignedIntegerEval 0 (some 1),
         anyEval (some ['.'])]),
        unsignedIntegerEval])]

/-- `SignedFloat('.')` = `Any('+-')[0:1] + UnsignedFloat('.')`
(match.py 1269-1271). -/
def signedFloatEval : SMatch :=
  addEval (andEval [repDF (anyEval (some ['+', '-'])) 0 (some 1),
    unsignedFloatEval])

/-- The matcher the spec specifies for `SignedEFloat` (spec, section 9, open
questions): `SignedFloat() + Optional(Any(exponent) + SignedInteger())` with
`exponent = 'eE'` — the source's expression with the missing invocation
restored. -/
def signedEFloatIntended : SMatch :=
  addEval (andEval [signedFloatEval,
    optionalEval (addEval (andEval [anyEval (some ['e', 'E']),
      signedIntegerEval]))])

/-! ## Fallible matchers (for the `SignedEFloat` source bug)

`SignedEFloat` (match.py 1274-1279) returns
`SignedFloat + (Any(exponent) + SignedInteger())[0:1]`: `SignedFloat` is the
*function object*, not a matcher.  Python resolves the `+` through
`BaseMatch.__radd__` (match.py 55-68) on the right operand, producing
`Add(And(SignedFloat, Optional(...)))`; `coerce` (match.py 1285-1290) leaves
the function untouched since it is not a string.  Applying the resulting
matcher, `And.__call__` calls `SignedFloat(stream)` — which *returns a new
matcher object* (binding the stream to the `decimal` parameter) — and then
calls `next(...)` on that non-iterator object, raising `TypeError` before any
attempt is yielded.

A fallible matcher returns the attempts yielded before the generator either
exhausts (flag `false`) or raises (flag `true`). -/

/-- Attempts delivered before normal exhaustion (`false`) or an exception
(`true`). -/
abbrev MatchR (σ α : Type) := σ → List (Attempt σ α) × Bool

/-- Iterate the attempts of one generator (already listed, with its final
error flag), running the continuation `k` for each attempt: an error from `k`
propagates at once, discarding the remaining attempts; the generator's own
error surfaces only after its last attempt has been consumed. -/
def seqR {σ α : Type} (k : Attempt σ α → List (Attempt σ α) × Bool) :
    List (Attempt σ α) → Bool → List (Attempt σ α) × Bool
  | [], err => ([], err)
  | a :: more, err =>
      let r := k a
      if r.2 then (r.1, true)
      else
        let r2 := seqR k more err
        (r.1 ++ r2.1, r2.2)

/-- The frame loop of `And.__call__` (match.py 623-648) over fallible
children: `And` catches only `StopIteration`, so a child exception propagates
out of the whole product after the combinations already produced. -/
def andRestR {σ α : Type} : List (MatchR σ α) → List α → σ →
    List (Attempt σ α) × Bool
  | [], acc, s => ([(acc, s)], false)
  | m :: rest, acc, s =>
      let r := m s
      seqR (fun p => andRestR rest (acc ++ p.1) p.2) r.1 r.2

/-- `And.__call__` over fallible children (the empty-children guard as in
`andEval`). -/
def andEvalR {σ α : Type} (ms : List (MatchR σ α)) : MatchR σ α :=
  fun s =>
    match ms with
    | [] => ([], false)
    | _ :: _ => andRestR ms [] s

/-- `Apply.__call__` with `raw=True` over a fallible child: the `for` loop
relays attempts until the child raises, and the exception propagates. -/
def applyRawR {σ α β : Type} (m : MatchR σ α) (f : List α → List β) :
    MatchR σ β :=
  fun s =>
    let r := m s
    (r.1.map fun p => (f p.1, p.2), r.2)

/-- An infallible matcher as a fallible one. -/
def liftR {σ α : Type} (m : MatchF σ α) : MatchR σ α := fun s => (m s, false)

/-- The first child of the buggy `SignedEFloat`: the un-invoked `SignedFloat`
function.  `And.__call__` calls it on the stream, obtaining a matcher object
(the stream is bound to the `decimal` parameter), and the first
`next(generator)` on that non-iterator raises `TypeError`: no attempt is ever
yielded. -/
def signedFloatUninvoked : MatchR (List Char) (List Char) := fun _ => ([], true)

/-- `SignedEFloat()` as the source builds it (match.py 1274-1279):
`Add(And(<function SignedFloat>, (Any('eE') + SignedInteger())[0:1]))`. -/
def signedEFloatCode : MatchR (List Char) (List Char) :=
  applyRawR (andEvalR [signedFloatUninvoked,
    liftR (optionalEval (addEval (andEval [anyEval (some ['e', 'E']),
      signedIntegerEval])))]) addFn

/-! ## `Repeat.__init__` validation (match.py 437-510, support.py 7-14) -/

/-- A Python value as passed for `start`, `stop` or `direction`: an `int`,
`None`, or a value of any other type. -/
inductive PyVal : Type where
  | vint (n : Int)
  | vnone
  | vother
deriving Repr, DecidableEq

/-- A Python exception class raised by the constructor. -/
inductive PyError : Type where
  | typeError
  | valueError
deriving Repr, DecidableEq

/-- `assert_type` (support.py 7-14) against `int`: passes iff the value is an
int, or is `None` while `none_ok` is set. -/
def assertTypeInt (noneOk : Bool) : PyVal → Bool
  | .vnone => noneOk
  | .vint _ => true
  | .vother => false

/-- `if start == None: start = 0` (match.py 496). -/
def pyDefaultStart : PyVal → PyVal
  | .vnone => .vint 0
  | x => x

/-- The integer payload (only read after `assertTypeInt` has passed). -/
def intOf : PyVal → Int
  | .vint n => n
  | _ => 0

/-- The validation sequence of `Repeat.__init__` (match.py 496-507), in
source order: default `start`, type-check `start`/`stop`/`direction`
(`stop` with `none_ok`), then reject `start < 0`, then
`stop != None and stop < start`, then `abs(direction) > 1`.  On success the
constructor stores the parameters; nothing is deferred to match time. -/
def repeatInit (start stop direction : PyVal) : Except PyError Unit :=
  let st := pyDefaultStart start
  if ¬ assertTypeInt false st then .error .typeError
  else if ¬ assertTypeInt true stop then .error .typeError
  else if ¬ assertTypeInt false direction then .error .typeError
  else if intOf st < 0 then .error .valueError
  else if stop ≠ PyVal.vnone ∧ intOf stop < intOf st then .error .valueError
  else if (intOf direction).natAbs > 1 then .error .valueError
  else .ok ()

/-- The claim's validity condition on the parameters: `start` a non-negative
int (or `None`, which the signature defaults to 0), `stop` absent or an int
at least the (defaulted) start, `direction` an int of absolute value at most
one; no other types. -/
def validRepeatParams (start stop direction : PyVal) : Bool :=
  (match start with
    | .vnone => true
    | .vint a => 0 ≤ a
    | .vother => false) &&
  (match stop with
    | .vnone => true
    | .vint b => intOf (pyDefaultStart start) ≤ b
    | .vother => false) &&
  (match direction with
    | .vint d => d.natAbs ≤ 1
    | _ => false)

/-! ## `KApply` over streams with and without a core (match.py 932-950) -/

/-- A stream as `KApply` sees it: either a plain string (no `core`
attribute — accessing it raises `AttributeError`) or a stream carrying an
ambient core of type `γ`. -/
inductive PStream (γ : Type) : Type where
  | plain (toks : List Char)
  | cored (toks : List Char) (core : γ)
deriving Repr, DecidableEq

/-- The `try: kargs['core'] = stream_in.core except: kargs['core'] = None`
block (match.py 940-943): the `AttributeError` raised by a plain stream is
swallowed and the core defaults to `None`. -/
def tryGetCore {γ : Type} : PStream γ → Option γ
  | .plain _ => none
  | .cored _ c => some c

/-- `KApply.__call__` with the default `raw=False` (match.py 932-950):
`kargs` is filled once per application (`stream_in`, `core`) and per attempt
(`stream_out`, `results`); each child attempt `(results, stream_out)` is
relayed as `([function(**kargs)], stream_out)`. -/
def kapplyEval {γ α β : Type} (m : MatchF (PStream γ) α)
    (f : PStream γ → PStream γ → Option γ → List α → β) :
    MatchF (PStream γ) β :=
  fun sin =>
    (m sin).map fun p => ([f sin p.2 (tryGetCore sin) p.1], p.2)

/-! ## The matcher fragment for the suffix invariant

An inductive closing the library's combinators over string streams:
`Any`, `Literal`, `Empty`, `And`, `Or`, `Lookahead`, `Repeat` (with optional
separator and any direction), the `Apply(raw=True)` family (`Apply`, `Map`,
`Add`, `Drop`, `Substitute`, `Name` — match.py 1136-1185 — all reduce to it)
and `KApply` restricted to plain string streams.  `Regexp` (the `re` engine),
`Delayed` (pure indirection once bound), and `Commit`/`Trace` (which need the
ambient core and yield at most `([], stream)`) are not modelled. -/
inductive MT : Type where
  | anyT (restrict : Option (List Char))
  | litT (text : List Char)
  | emptyT
  | andT (children : List MT)
  | orT (children : List MT)
  | lookT (child : MT) (negated : Bool)
  | repT (child : MT) (sep : Option MT) (start : Nat) (stop : Option Nat)
      (direction : Int)
  | applyT (child : MT) (f : List (List Char) → List (List Char))
  | kapplyT (child : MT) (f : List Char → List Char → List (List Char) → List Char)

/-- Evaluation of a fragment matcher, projected to the attempts yielded.
`fuel` bounds the unbounded loops of `Repeat` with `stop = None` (any
terminating Python run is reproduced by a large enough fuel); a Python error
inside `Repeat` (direction 0 with `stop == 0`) or a depth-first hang ends the
attempt sequence with the attempts already yielded — the projection keeps
exactly those, though in the hanging case the real consumer would then block
rather than see further sibling alternatives, so the projection may list
extra later attempts; for the suffix invariant this only enlarges the set
covered. -/
def evalMT (fuel : Nat) : MT → SMatch
  | .anyT r => anyEval r
  | .litT t => litEval t
  | .emptyT => emptyEval
  | .andT cs => fun s => andEval (cs.attach.map fun c => evalMT fuel c.1) s
  | .orT cs => fun s => orEval (cs.attach.map fun c => evalMT fuel c.1) s
  | .lookT c n => lookEval (evalMT fuel c) n
  | .repT c sep start stop dir => fun s =>
      ((repeatEval (evalMT fuel c)
        (match sep with
          | none => evalMT fuel c
          | some sp => andEval [evalMT fuel sp, evalMT fuel c])
        start stop dir fuel s).getD ([], false)).1
  | .applyT c f => applyRaw (evalMT fuel c) f
  | .kapplyT c f => fun s =>
      (evalMT fuel c s).map fun p => ([f s p.2 p.1], p.2)
termination_by t => sizeOf t
decreasing_by
  all_goals simp_wf
  all_goals try (have h := List.sizeOf_lt_of_mem c.2; omega)
  all_goals omega

/-- Suffix-soundness of a string matcher: every attempt leaves a suffix of
the input stream (so the remaining length never increases). -/
def SoundM (m : MatchF (List Char) (List Char)) : Prop :=
  ∀ (s : List Char) (p : Attempt (List Char) (List Char)),
    p ∈ m s → List.IsSuffix p.2 s

/-! # Theorems -/

/-! ## The FIFO of `__with_depth` processes the queue level by level -/

/-- Rotation: processing the first `A.length` iterations of the machine on
queue `A ++ B` yields the per-entry yields of `A` in order and leaves the
queue `B ++ carried(A)`. -/
theorem bfsRun_split {σ α : Type} (first second : MatchF σ α) (start : Nat)
    (stop : Option Nat) (A : List (QEntry σ α)) :
    ∀ (B : List (QEntry σ α)) (f : Nat),
      bfsRun first second start stop (A.length + f) (A ++ B) =
        A.flatMap (yieldsOf first second start stop) ++
          bfsRun first second start stop f
            (B ++ A.flatMap (carriedOf first second stop)) := by
  induction A with
  | nil => intro B f; simp
  | cons a A ih =>
      intro B f
      have h1 : (a :: A).length + f = (A.length + f) + 1 := by
        simp only [List.length_cons]; omega
      rw [h1]
      show yieldsOf first second start stop a ++
        bfsRun first second start stop (A.length + f)
          ((A ++ B) ++ carriedOf first second stop a) = _
      rw [List.append_assoc A B, ih (B ++ carriedOf first second stop a) f]
      simp [List.append_assoc]

/-- Iterated extension commutes with one leading extension round. -/
theorem carriedIter_succ_eq {σ α : Type} (first second : MatchF σ α)
    (stop : Option Nat) :
    ∀ (L : Nat) (q : List (QEntry σ α)),
      carriedIter first second stop q (L + 1) =
        carriedIter first second stop (carriedStep first second stop q) L := by
  intro L
  induction L with
  | zero => intro q; rfl
  | succ L ih => intro q; rw [carriedIter, ih, carriedIter]

/-- With enough fuel and a queue that drains after `L` rounds, the machine
produces exactly the level-by-level yields. -/
theorem bfsRun_levels {σ α : Type} (first second : MatchF σ α) (start : Nat)
    (stop : Option Nat) :
    ∀ (L : Nat) (q : List (QEntry σ α)) (f : Nat),
      carriedIter first second stop q L = [] →
      qfuel first second stop L q ≤ f →
      bfsRun first second start stop f q =
        levelYields first second start stop L q := by
  intro L
  induction L with
  | zero =>
      intro q f hc hf
      simp only [carriedIter] at hc
      subst hc
      cases f <;> rfl
  | succ L ih =>
      intro q f hc hf
      simp only [qfuel] at hf
      have h2 : f = q.length + (f - q.length) := by omega
      rw [h2]
      have hs := bfsRun_split first second start stop q [] (f - q.length)
      simp only [List.append_nil, List.nil_append] at hs
      rw [hs]
      rw [show q.flatMap (carriedOf first second stop) =
        carriedStep first second stop q from rfl]
      rw [carriedIter_succ_eq] at hc
      rw [ih (carriedStep first second stop q) (f - q.length) hc (by omega)]
      rfl

/-- With `start = stop = k`, an extension passes the yield test exactly when
its count is `k`. -/
theorem yieldCond_kk (k c : Nat) : yieldCond k (some k) c = decide (c = k) := by
  by_cases h : c = k
  · subst h; simp [yieldCond]
  · simp [yieldCond, h]
    omega

/-- The carry test at `stop = some k`. -/
theorem carryCond_some (k c : Nat) : carryCond (some k) c = decide (c < k) :=
  rfl

/-- One extension round carries the level-`n` chain entries to the
level-`n + 1` chain entries while `n + 1` is below the stop, and drops them
otherwise. -/
theorem carriedStep_chainEntries {σ α : Type} (first second : MatchF σ α)
    (s : σ) (k n : Nat) :
    carriedStep first second (some k) (chainEntries first second s n) =
      if n + 1 < k then chainEntries first second s (n + 1) else [] := by
  by_cases h : n + 1 < k <;>
    simp [carriedStep, chainEntries, carriedOf, qexts, carryCond_some, h,
      List.flatMap_map, List.filter_map, Function.comp_def,
      List.map_flatMap, List.map_map, exactChains]

/-- The yields produced while popping the level-`n` chain entries at
`start = stop = k`: the level-`n + 1` chain entries when `n + 1 = k`,
nothing otherwise. -/
theorem yieldsStep_chainEntries {σ α : Type} (first second : MatchF σ α)
    (s : σ) (k n : Nat) :
    (chainEntries first second s n).flatMap
        (yieldsOf first second k (some k)) =
      if n + 1 = k then chainEntries first second s (n + 1) else [] := by
  by_cases h : n + 1 = k <;>
    simp [chainEntries, yieldsOf, qexts, yieldCond_kk, h,
      List.flatMap_map, List.filter_map, Function.comp_def,
      List.map_flatMap, List.map_map, exactChains]

/-- Level processing of the empty queue yields nothing. -/
theorem levelYields_nil {σ α : Type} (first second : MatchF σ α)
    (start : Nat) (stop : Option Nat) :
    ∀ L, levelYields first second start stop L [] = [] := by
  intro L
  induction L with
  | zero => rfl
  | succ L ih => simp [levelYields, carriedStep, ih]

/-- Complete level processing from the level-`n` chain entries at
`start = stop = k`: the only yields are the `k`-occurrence chain entries,
produced while popping level `k - 1`, and they appear exactly when level
`k - 1` is among the `L` processed rounds. -/
theorem levelYields_chain {σ α : Type} (first second : MatchF σ α) (s : σ)
    (k : Nat) :
    ∀ (L n : Nat), n = 0 ∨ n < k →
      levelYields first second k (some k) L (chainEntries first second s n) =
        if n < k ∧ k ≤ n + L then chainEntries first second s k else [] := by
  intro L
  induction L with
  | zero =>
      intro n _
      rw [levelYields, if_neg (by omega)]
  | succ L ih =>
      intro n hn
      rw [levelYields, yieldsStep_chainEntries, carriedStep_chainEntries]
      by_cases h1 : n + 1 = k
      · rw [if_pos h1, if_neg (by omega), levelYields_nil,
          if_pos (by omega), h1, List.append_nil]
      · by_cases h2 : n + 1 < k
        · have hiff : (n + 1 < k ∧ k ≤ n + 1 + L) ↔
              (n < k ∧ k ≤ n + (L + 1)) := by omega
          rw [if_neg h1, if_pos h2, ih (n + 1) (Or.inr h2),
            List.nil_append, if_congr hiff rfl rfl]
        · rw [if_neg h1, if_neg h2, levelYields_nil, if_neg (by omega),
            List.nil_append]

/-- The iterated carried queue from the seed is the chain-entry level. -/
theorem carriedIter_chain {σ α : Type} (first second : MatchF σ α) (s : σ)
    (k : Nat) :
    ∀ n, n = 0 ∨ n < k →
      carriedIter first second (some k) (chainEntries first second s 0) n =
        chainEntries first second s n := by
  intro n
  induction n with
  | zero => intro _; rfl
  | succ n ih =>
      intro hn
      have hnk : n + 1 < k := by omega
      rw [carriedIter, ih (by omega), carriedStep_chainEntries, if_pos hnk]

/-- The seed queue drains after `k + 1` rounds when `stop = some k`. -/
theorem carriedIter_drains {σ α : Type} (first second : MatchF σ α) (s : σ)
    (k : Nat) :
    carriedIter first second (some k)
      (chainEntries first second s 0) (k + 1) = [] := by
  cases k with
  | zero =>
      rw [carriedIter, carriedIter, carriedStep_chainEntries,
        if_neg (by omega)]
  | succ k =>
      have h1 : carriedIter first second (some (k + 1))
          (chainEntries first second s 0) (k + 1) = [] := by
        rw [carriedIter, carriedIter_chain first second s (k + 1) k (by omega),
          carriedStep_chainEntries, if_neg (by omega)]
      rw [carriedIter, h1]
      rfl

/-- `Repeat.__with_depth` at `start = stop = k` yields exactly the
`k`-occurrence chain entries (for `k = 0`, the single pre-loop yield). -/
theorem withDepthYields_exact {σ α : Type} (first second : MatchF σ α)
    (s : σ) (k : Nat) :
    withDepthYields first second k (some k) k s =
      chainEntries first second s k := by
  unfold withDepthYields
  rw [show ([⟨0, [], s⟩] : List (QEntry σ α)) =
    chainEntries first second s 0 from rfl]
  rw [bfsRun_levels first second k (some k) (k + 1)
    (chainEntries first second s 0) _ (carriedIter_drains first second s k)
    (le_refl _)]
  rw [levelYields_chain first second s k (k + 1) 0 (Or.inl rfl)]
  by_cases hk : k = 0
  · subst hk
    rw [if_pos rfl, if_neg (by omega), List.append_nil]
  · rw [if_neg hk, if_pos (by omega), List.nil_append]

/-- `Repeat.__breadth_first` at `start = stop = k` yields exactly the
`k`-occurrence chains, in enumeration order. -/
theorem breadthFirst_exact {σ α : Type} (first second : MatchF σ α) (s : σ)
    (k : Nat) :
    breadthFirstEval first second k (some k) k s =
      exactChains first second s k := by
  unfold breadthFirstEval
  rw [withDepthYields_exact]
  simp [chainEntries, List.map_map, Function.comp_def]

/-- Folding the dictionary insertions over entries of one constant depth
extends the single bucket in order. -/
theorem foldl_dictInsert_const {σ α : Type} (k : Nat) :
    ∀ (l : List (QEntry σ α)) (acc : List (Attempt σ α)),
      (∀ e ∈ l, e.count = k) →
      List.foldl (fun d e => dictInsert d e.count (e.acc, e.stream))
          [(k, acc)] l =
        [(k, acc ++ l.map fun e => (e.acc, e.stream))] := by
  intro l
  induction l with
  | nil => intro acc _; simp
  | cons e l ih =>
      intro acc h
      have he : e.count = k := h e (List.mem_cons_self e l)
      rw [List.foldl_cons,
        show dictInsert [(k, acc)] e.count (e.acc, e.stream) =
          [(k, acc ++ [(e.acc, e.stream)])] from by rw [he]; simp [dictInsert],
        ih (acc ++ [(e.acc, e.stream)])
          (fun x hx => h x (List.mem_cons_of_mem e hx))]
      simp

/-- `Repeat.__exhaustive` at `start = stop = k`: every yield has depth `k`,
so the single bucket reproduces the breadth-first order: exactly the
`k`-occurrence chains. -/
theorem exhaustive_exact {σ α : Type} (first second : MatchF σ α) (s : σ)
    (k : Nat) :
    exhaustiveEval first second k (some k) k s =
      exactChains first second s k := by
  unfold exhaustiveEval
  rw [withDepthYields_exact]
  cases hc : exactChains first second s k with
  | nil => simp [chainEntries, hc]
  | cons p l =>
      rw [chainEntries, hc, List.map_cons, List.foldl_cons,
        show dictInsert [] (QEntry.mk k p.1 p.2).count
          ((QEntry.mk k p.1 p.2).acc, (QEntry.mk k p.1 p.2).stream) =
          [(k, [(p.1, p.2)])] from rfl,
        foldl_dictInsert_const k _ _ (by
          intro e he
          obtain ⟨p2, hp2, rfl⟩ := List.mem_map.1 he
          rfl)]
      simp [List.map_map, Function.comp_def]

/-- `matcherAt` with equal first and second matcher. -/
theorem matcherAt_self {σ α : Type} (m : MatchF σ α) (c : Nat) :
    matcherAt m m c = m := by
  unfold matcherAt
  split <;> rfl

/-- A `flatMap` of singletons is a `map`. -/
theorem flatMap_single {A B : Type} (l : List A) (g : A → B) :
    l.flatMap (fun x => [g x]) = l.map g := by
  induction l <;> simp [*]

/-- When no child subtree hangs, one frame's generator loop runs through all
its attempts and ends with the exhaustion outcome. -/
theorem dfIter_no_hang {σ α : Type}
    (child : List α → σ → List (Attempt σ α) × Bool)
    (ex : List (Attempt σ α) × Bool) (acc : List α) :
    ∀ atts : List (Attempt σ α),
      (∀ q ∈ atts, (child (acc ++ q.1) q.2).2 = false) →
      dfIter child ex acc atts =
        ((atts.flatMap fun q => (child (acc ++ q.1) q.2).1) ++ ex.1, ex.2) := by
  intro atts
  induction atts with
  | nil => intro _; simp [dfIter]
  | cons q rest ih =>
      intro h
      have hq := h q (List.mem_cons_self q rest)
      simp only [dfIter, hq]
      rw [ih (fun x hx => h x (List.mem_cons_of_mem q hx))]
      simp [List.append_assoc]

/-- A frame at `count = stop` is yielded and popped at once (the stale
`count2` equals its own count). -/
theorem dfGo_at_stop {σ α : Type} (first second : MatchF σ α) (k f : Nat)
    (hf : 1 ≤ f) (acc : List α) (st : σ) :
    dfGo first second k (some k) f k acc st = ([(acc, st)], false) := by
  obtain ⟨f', rfl⟩ : ∃ f', f = f' + 1 := ⟨f - 1, by omega⟩
  rw [dfGo, if_neg (by simp), if_pos (by simp [yieldCond_kk])]

/-- A frame one below the stop (`count1 + 1 = k`): every generator attempt
spawns a frame at the stop that yields its `k`-chain and pops; on exhaustion
the yield test passes (`count2 = k ≥ start`), so the frame yields its own
`(k - 1)`-occurrence attempt and pops normally. -/
theorem dfGo_pre_stop {σ α : Type} (first second : MatchF σ α) (k c : Nat)
    (hc : c + 1 = k) (f : Nat) (hf : 2 ≤ f) (acc : List α) (st : σ) :
    dfGo first second k (some k) f c acc st =
      ((matcherAt first second c st).map (fun q => (acc ++ q.1, q.2)) ++
        [(acc, st)], false) := by
  obtain ⟨f', rfl⟩ : ∃ f', f = f' + 1 := ⟨f - 1, by omega⟩
  rw [dfGo, if_pos (by simp; omega), hc, if_pos (by simp [yieldCond_kk])]
  rw [dfIter_no_hang (dfGo first second k (some k) f' k)
    ([(acc, st)], false) acc (matcherAt first second c st)
    (fun q _ => by rw [dfGo_at_stop first second k f' (by omega)])]
  simp only [show ∀ (a : List α) (st2 : σ),
    dfGo first second k (some k) f' k a st2 = ([(a, st2)], false) from
    fun a st2 => dfGo_at_stop first second k f' (by omega) a st2]
  rw [flatMap_single]

/-- A frame more than one below the stop (`count1 + 2 ≤ k`, so the
exhaustion test `count2 ≥ start` can never pass): only the leftmost descent
is ever explored.  If the first attempt at each level down to `k - 2` exists,
the `k - 2` frame runs through *all* its attempts (each a terminating
`dfGo_pre_stop` subtree) and then spins forever; if some level on the
descent has no attempt at all, that frame spins at once and nothing is ever
yielded.  Either way the loop never terminates and no sibling alternative of
the descent is reached. -/
theorem dfGo_left {σ α : Type} (m : MatchF σ α) (k : Nat) :
    ∀ (j f c : Nat) (acc : List α) (st : σ), c + j + 2 = k → j + 3 ≤ f →
      dfGo m m k (some k) f c acc st =
        (match leftmostPrefix m j acc st with
        | none => ([], true)
        | some pr =>
            ((m pr.2).flatMap fun q =>
              ((m q.2).map fun r => (pr.1 ++ q.1 ++ r.1, r.2)) ++
                [(pr.1 ++ q.1, q.2)], true)) := by
  intro j
  induction j with
  | zero =>
      intro f c acc st hck hf
      obtain ⟨f', rfl⟩ : ∃ f', f = f' + 1 := ⟨f - 1, by omega⟩
      rw [dfGo, if_pos (by simp; omega),
        if_neg (by simp [yieldCond_kk]; omega)]
      rw [dfIter_no_hang (dfGo m m k (some k) f' (c + 1)) ([], true) acc
        (matcherAt m m c st)
        (fun q _ => by
          rw [dfGo_pre_stop m m k (c + 1) (by omega) f' (by omega)])]
      simp only [show ∀ (a : List α) (st2 : σ),
        dfGo m m k (some k) f' (c + 1) a st2 =
          ((matcherAt m m (c + 1) st2).map (fun q => (a ++ q.1, q.2)) ++
            [(a, st2)], false) from
        fun a st2 => dfGo_pre_stop m m k (c + 1) (by omega) f' (by omega)
          a st2]
      simp [leftmostPrefix, matcherAt_self]
  | succ j ih =>
      intro f c acc st hck hf
      obtain ⟨f', rfl⟩ : ∃ f', f = f' + 1 := ⟨f - 1, by omega⟩
      rw [dfGo, if_pos (by simp; omega),
        if_neg (by simp [yieldCond_kk]; omega), matcherAt_self]
      cases hms : m st with
      | nil => simp [dfIter, leftmostPrefix, hms]
      | cons p rest =>
          simp only [dfIter]
          rw [ih f' (c + 1) (acc ++ p.1) p.2 (by omega) (by omega)]
          rw [show leftmostPrefix m (j + 1) acc st =
            leftmostPrefix m j (acc ++ p.1) p.2 from by
            rw [leftmostPrefix, hms]]
          cases leftmostPrefix m j (acc ++ p.1) p.2 with
          | none => simp
          | some pr => simp

/-- `Repeat.__depth_first` at `start = stop = k`, characterised.  For
`k = 1` the root frame is the `dfGo_pre_stop` case: each child attempt is
yielded as a 1-chain, then the spurious empty attempt, and the generator
terminates.  For `k ≥ 2` the loop never terminates: it follows only the
*first* child attempt at each of the first `k - 2` levels; if that descent
survives, the level-`(k - 2)` frame yields, for each of its attempts `q`,
the full `k`-chains extending `q` followed by the spurious
`(k - 1)`-occurrence attempt, and then spins forever; if the descent dies
earlier, nothing at all is yielded. -/
theorem depthFirst_exact {σ α : Type} (m : MatchF σ α) (s : σ) (k : Nat)
    (hk : 1 ≤ k) :
    depthFirstEval m m k (some k) k s =
      some (if k = 1 then (m s ++ [([], s)], false)
        else
          match leftmostPrefix m (k - 2) [] s with
          | none => ([], true)
          | some pr =>
              ((m pr.2).flatMap fun q =>
                ((m q.2).map fun r => (pr.1 ++ q.1 ++ r.1, r.2)) ++
                  [(pr.1 ++ q.1, q.2)], true)) := by
  unfold depthFirstEval
  rw [if_neg (by simp; omega)]
  by_cases h1 : k = 1
  · subst h1
    rw [if_pos rfl, dfGo_pre_stop m m 1 0 (by omega) 2 (by omega) [] s]
    simp [matcherAt_self]
  · rw [if_neg h1]
    exact congrArg some
      (dfGo_left m k (k - 2) (k + 1) 0 [] s (by omega) (by omega))

/-- Claim C2: `Repeat(m, 0, 0, direction)` on any stream.  For directions +1
(breadth-first) and -1 (exhaustive) the single attempt `([], s)` is yielded
regardless of `m` and the generator terminates, as the claim states; for
direction 0 (depth-first) the generator instead raises `UnboundLocalError`
(`count2` referenced before assignment, since `count1 < self._stop` fails on
the first iteration when `stop == 0`) and yields nothing. -/
theorem repeat_zero_zero_behaviour {σ α : Type} (m : MatchF σ α) (s : σ) :
    repeatEval m m 0 (some 0) 1 0 s = some ([([], s)], false) ∧
    repeatEval m m 0 (some 0) (-1) 0 s = some ([([], s)], false) ∧
    repeatEval m m 0 (some 0) 0 0 s = none := by
  refine ⟨?_, ?_, rfl⟩
  · show some (breadthFirstEval m m 0 (some 0) 0 s, false) =
      some ([([], s)], false)
    rw [breadthFirst_exact]
    rfl
  · show some (exhaustiveEval m m 0 (some 0) 0 s, false) =
      some ([([], s)], false)
    rw [exhaustive_exact]
    rfl

/-- Claim C4, counterexample: `Repeat(Any(), 1, 1, 0)` on `"ab"` does not
yield (only) the exactly-1-occurrence attempts: besides `(["a"], "b")` it
also yields the spurious zero-occurrence attempt `([], "ab")`. -/
theorem repeat_depth_first_spurious :
    (repeatEval (anyEval none) (anyEval none) 1 (some 1) 0 1
        ['a', 'b']).map (fun r => r.1) ≠
      some (exactChains (anyEval none) (anyEval none) ['a', 'b'] 1) := by
  decide

/-- Claim C4 (amended): with `start = stop = k`, direction +1 yields exactly
the `k`-occurrence chains (counts constant, hence non-decreasing) and
direction -1 yields exactly the same chains (counts constant, hence
non-increasing), both terminating.  Direction 0 diverges from the claim
twice over: for `k = 1` it yields each 1-occurrence attempt and then a
spurious 0-occurrence attempt before terminating; for `k ≥ 2` the generator
never terminates and explores only the leftmost `(k - 2)`-occurrence prefix
(first child attempt at each level) — if that descent exists it yields, for
each occurrence `q` extending it, the `k`-chains through `q` followed by the
spurious `(k - 1)`-occurrence attempt, then spins forever; if the descent
fails it yields nothing at all.  In particular for `k ≥ 2` not even all
exactly-`k` sequences are yielded. -/
theorem repeat_exact_bounds {σ α : Type} (m : MatchF σ α) (k : Nat) (s : σ)
    (hk : 1 ≤ k) :
    repeatEval m m k (some k) 1 k s = some (exactChains m m s k, false) ∧
    repeatEval m m k (some k) (-1) k s = some (exactChains m m s k, false) ∧
    repeatEval m m k (some k) 0 k s =
      some (if k = 1 then (m s ++ [([], s)], false)
        else
          match leftmostPrefix m (k - 2) [] s with
          | none => ([], true)
          | some pr =>
              ((m pr.2).flatMap fun q =>
                ((m q.2).map fun r => (pr.1 ++ q.1 ++ r.1, r.2)) ++
                  [(pr.1 ++ q.1, q.2)], true)) := by
  refine ⟨?_, ?_, ?_⟩
  · show some (breadthFirstEval m m k (some k) k s, false) = _
    rw [breadthFirst_exact]
  · show some (exhaustiveEval m m k (some k) k s, false) = _
    rw [exhaustive_exact]
  · show depthFirstEval m m k (some k) k s = _
    exact depthFirst_exact m s k hk

/-- Claim C4, witness: the amended statement at
`m = Or(Literal("aaa"), Literal("a"))`, `k = 3`, `s = "aaa"` — here the
leftmost descent takes `Literal("aaa")`, whose remainder `""` has no further
attempt, so direction 0 yields nothing and hangs, while directions +1 and
-1 yield the chains of three `"a"`. -/
theorem repeat_exact_bounds_witness :
    repeatEval (orEval [litEval ['a', 'a', 'a'], litEval ['a']])
        (orEval [litEval ['a', 'a', 'a'], litEval ['a']]) 3 (some 3) 1 3
        ['a', 'a', 'a'] =
      some (exactChains (orEval [litEval ['a', 'a', 'a'], litEval ['a']])
        (orEval [litEval ['a', 'a', 'a'], litEval ['a']])
        ['a', 'a', 'a'] 3, false) ∧
    repeatEval (orEval [litEval ['a', 'a', 'a'], litEval ['a']])
        (orEval [litEval ['a', 'a', 'a'], litEval ['a']]) 3 (some 3) (-1) 3
        ['a', 'a', 'a'] =
      some (exactChains (orEval [litEval ['a', 'a', 'a'], litEval ['a']])
        (orEval [litEval ['a', 'a', 'a'], litEval ['a']])
        ['a', 'a', 'a'] 3, false) ∧
    repeatEval (orEval [litEval ['a', 'a', 'a'], litEval ['a']])
        (orEval [litEval ['a', 'a', 'a'], litEval ['a']]) 3 (some 3) 0 3
        ['a', 'a', 'a'] =
      some (if 3 = 1 then
          (orEval [litEval ['a', 'a', 'a'], litEval ['a']] ['a', 'a', 'a'] ++
            [([], ['a', 'a', 'a'])], false)
        else
          match leftmostPrefix
              (orEval [litEval ['a', 'a', 'a'], litEval ['a']]) (3 - 2) []
              ['a', 'a', 'a'] with
          | none => ([], true)
          | some pr =>
              ((orEval [litEval ['a', 'a', 'a'], litEval ['a']]
                  pr.2).flatMap fun q =>
                ((orEval [litEval ['a', 'a', 'a'], litEval ['a']]
                    q.2).map fun r => (pr.1 ++ q.1 ++ r.1, r.2)) ++
                  [(pr.1 ++ q.1, q.2)], true)) :=
  repeat_exact_bounds (orEval [litEval ['a', 'a', 'a'], litEval ['a']]) 3
    ['a', 'a', 'a'] (by omega)

/-- Claim C1 (corrected): the spec says an empty `And` yields exactly one
`([], stream)`; on the code, the `if self.__matchers:` guard makes `And()`
yield *no* attempt on any stream. -/
theorem and_empty_no_attempts {σ α : Type} (s : σ) :
    andEval ([] : List (MatchF σ α)) s = [] := rfl

/-- Claim C1, counterexample to the claim as stated: on the stream `"a"`,
`And()` does not yield the single attempt `([], "a")`. -/
theorem and_empty_not_single :
    andEval ([] : List (MatchF (List Char) (List Char))) ['a'] ≠
      [([], ['a'])] := by
  decide

/-- Claim C5: `Or(m1, ..., mk)` yields every attempt of each child applied to
the original stream, children in order, earlier children exhausted first; in
particular `Or(m)` is attempt-equivalent to `m`. -/
theorem or_enumerates_children {σ α : Type} (ms : List (MatchF σ α)) (s : σ) :
    orEval ms s = (ms.map fun m => m s).flatten ∧
      ∀ m : MatchF σ α, orEval [m] s = m s := by
  constructor
  · induction ms with
    | nil => rfl
    | cons m rest ih => simp [orEval, ih]
  · intro m
    simp [orEval]

/-- Claim C6: `Lookahead(child, negated)` on `s` yields exactly one attempt
`([], s)` — consuming nothing — precisely when the child produces at least
one attempt (`negated = false`), respectively no attempt (`negated = true`);
otherwise it yields no attempt. -/
theorem lookahead_spec {σ α : Type} (m : MatchF σ α) (s : σ) :
    (m s ≠ [] → lookEval m false s = [([], s)]) ∧
    (m s = [] → lookEval m false s = []) ∧
    (m s = [] → lookEval m true s = [([], s)]) ∧
    (m s ≠ [] → lookEval m true s = []) := by
  refine ⟨fun h => ?_, fun h => ?_, fun h => ?_, fun h => ?_⟩ <;>
    simp [lookEval, List.isEmpty_iff, h]

/-- Claim C6, witness: `Any()` matches on `"a"`, so positive lookahead yields
`([], "a")` and negative lookahead yields nothing. -/
theorem lookahead_spec_witness :
    lookEval (anyEval none) false ['a'] = [([], ['a'])] ∧
    lookEval (anyEval none) true ['a'] = [] := by
  refine ⟨(lookahead_spec (anyEval none) ['a']).1 ?_,
    (lookahead_spec (anyEval none) ['a']).2.2.2 ?_⟩ <;> decide

/-- Claim C9: an empty-but-present restriction collection is falsy in Python,
so `Any('')` accepts any token exactly like `Any()`: on a non-empty stream
both yield the single attempt `([head], rest)`. -/
theorem any_empty_restriction (c : Char) (rest : List Char) :
    anyEval (some []) (c :: rest) = [([[c]], rest)] ∧
    anyEval none (c :: rest) = [([[c]], rest)] :=
  ⟨rfl, rfl⟩

/-- Claim C10: on a stream without a `core` attribute (a plain string) the
`try`/`except` of `KApply.__call__` supplies `core = None`; the matcher does
not raise and relays the child's attempts, wrapping each result with the
function called with `core = None`. -/
theorem kapply_plain_stream {γ α β : Type} (m : MatchF (PStream γ) α)
    (f : PStream γ → PStream γ → Option γ → List α → β) (toks : List Char) :
    kapplyEval m f (.plain toks) =
      (m (.plain toks)).map fun p => ([f (.plain toks) p.2 none p.1], p.2) :=
  rfl

/-- Claim C7: `Repeat.__init__` returns normally exactly when the parameters
are valid — `start` a non-negative int (or `None`, defaulted to 0), `stop`
absent or an int no smaller than the start, `direction` an int with absolute
value at most 1 — and raises (`TypeError` or `ValueError`) otherwise, eagerly
at construction. -/
theorem repeat_init_valid_iff (start stop direction : PyVal) :
    repeatInit start stop direction = .ok () ↔
      validRepeatParams start stop direction = true := by
  cases start <;> cases stop <;> cases direction <;>
    simp [repeatInit, validRepeatParams, pyDefaultStart, assertTypeInt,
      intOf] <;>
    split_ifs <;> simp_all

/-- Claim C3: evaluating the code at the failing input.  The source's
`SignedEFloat` composes the *un-invoked* `SignedFloat` function, so on
`"-1.5e3"` it raises (`TypeError` from `next` on a non-iterator) having
yielded no attempt; the spec-intended
`SignedFloat() + Optional(Any('eE') + SignedInteger())` instead yields
`["-1."]` as its *first* attempt (the `UnsignedFloat` alternative
`UnsignedInteger() + Optional(Any('.'))` is tried first), with `["-1.5e3"]`
appearing only later, on backtracking. -/
theorem signedEFloat_code_raises :
    signedEFloatCode ['-', '1', '.', '5', 'e', '3'] = ([], true) ∧
    (signedEFloatIntended ['-', '1', '.', '5', 'e', '3']).head? =
      some ([['-', '1', '.']], ['5', 'e', '3']) ∧
    ([['-', '1', '.', '5', 'e', '3']], ([] : List Char)) ∈
      signedEFloatIntended ['-', '1', '.', '5', 'e', '3'] := by
  refine ⟨rfl, rfl, ?_⟩
  decide

/-! ## The suffix invariant (claim C8) -/

/-- `Any` leaves a suffix. -/
theorem sound_any (r : Option (List Char)) : SoundM (anyEval r) := by
  intro s p hp
  cases s with
  | nil => simp [anyEval] at hp
  | cons c rest =>
      cases r with
      | none =>
          simp only [anyEval, List.mem_singleton] at hp
          subst hp
          exact List.suffix_cons c rest
      | some l =>
          simp only [anyEval] at hp
          split at hp <;> simp at hp
          subst hp
          exact List.suffix_cons c rest

/-- `Literal` leaves a suffix. -/
theorem sound_lit (t : List Char) : SoundM (litEval t) := by
  intro s p hp
  simp only [litEval] at hp
  split at hp <;> simp at hp
  subst hp
  exact List.drop_suffix t.length s

/-- `Empty` leaves the stream unchanged. -/
theorem sound_empty : SoundM (emptyEval (σ := List Char) (α := List Char)) := by
  intro s p hp
  simp only [emptyEval, List.mem_singleton] at hp
  subst hp
  exact List.suffix_refl s

/-- The `And` frame loop keeps the stream a suffix of its input. -/
theorem sound_andRest :
    ∀ (ms : List (MatchF (List Char) (List Char))),
      (∀ m ∈ ms, SoundM m) →
      ∀ (acc : List (List Char)) (s : List Char)
        (p : Attempt (List Char) (List Char)),
        p ∈ andRest ms acc s → List.IsSuffix p.2 s := by
  intro ms
  induction ms with
  | nil =>
      intro _ acc s p hp
      simp only [andRest, List.mem_singleton] at hp
      subst hp
      exact List.suffix_refl s
  | cons m rest ih =>
      intro h acc s p hp
      simp only [andRest, List.mem_flatMap] at hp
      obtain ⟨q, hq, hp2⟩ := hp
      exact (ih (fun x hx => h x (List.mem_cons_of_mem m hx)) _ _ p
        hp2).trans (h m (List.mem_cons_self m rest) s q hq)

/-- `And` is suffix-sound when its children are. -/
theorem sound_and (ms : List (MatchF (List Char) (List Char)))
    (h : ∀ m ∈ ms, SoundM m) : SoundM (andEval ms) := by
  intro s p hp
  cases ms with
  | nil => simp [andEval] at hp
  | cons m rest => exact sound_andRest (m :: rest) h [] s p hp

/-- `Or` is suffix-sound when its children are. -/
theorem sound_or (ms : List (MatchF (List Char) (List Char)))
    (h : ∀ m ∈ ms, SoundM m) : SoundM (orEval ms) := by
  induction ms with
  | nil => intro s p hp; simp [orEval] at hp
  | cons m rest ih =>
      intro s p hp
      rcases List.mem_append.1 hp with h1 | h2
      · exact h m (List.mem_cons_self m rest) s p h1
      · exact ih (fun x hx => h x (List.mem_cons_of_mem m hx)) s p h2

/-- `Lookahead` never consumes input. -/
theorem sound_look (m : MatchF (List Char) (List Char)) (negated : Bool) :
    SoundM (lookEval m negated) := by
  intro s p hp
  simp only [lookEval] at hp
  split at hp <;> split at hp <;> simp at hp <;>
    (subst hp; exact List.suffix_refl s)

/-- The `Apply(raw=True)` family relays the child's streams. -/
theorem sound_applyRaw (m : MatchF (List Char) (List Char))
    (f : List (List Char) → List (List Char)) (h : SoundM m) :
    SoundM (applyRaw m f) := by
  intro s p hp
  simp only [applyRaw, List.mem_map] at hp
  obtain ⟨q, hq, rfl⟩ := hp
  exact h s q hq

/-- `__matcher(count)` is suffix-sound when both its options are. -/
theorem sound_matcherAt (first second : MatchF (List Char) (List Char))
    (hf : SoundM first) (hs : SoundM second) (c : Nat) :
    SoundM (matcherAt first second c) := by
  unfold matcherAt
  split <;> assumption

/-- Queue extensions stay suffixes of the popped entry's stream. -/
theorem qexts_sound (first second : MatchF (List Char) (List Char))
    (hf : SoundM first) (hs : SoundM second)
    (e : QEntry (List Char) (List Char)) :
    ∀ x ∈ qexts first second e, List.IsSuffix x.stream e.stream := by
  intro x hx
  simp only [qexts, List.mem_map] at hx
  obtain ⟨q, hq, rfl⟩ := hx
  exact sound_matcherAt first second hf hs e.count e.stream q hq

/-- Every yield of the breadth-first queue machine is a suffix of `s0`
whenever every queue entry is. -/
theorem bfsRun_sound (first second : MatchF (List Char) (List Char))
    (start : Nat) (stop : Option Nat) (hf : SoundM first) (hs : SoundM second)
    (s0 : List Char) :
    ∀ (f : Nat) (q : List (QEntry (List Char) (List Char))),
      (∀ e ∈ q, List.IsSuffix e.stream s0) →
      ∀ y ∈ bfsRun first second start stop f q, List.IsSuffix y.stream s0 := by
  intro f
  induction f with
  | zero => intro q _ y hy; simp [bfsRun] at hy
  | succ f ih =>
      intro q hq y hy
      cases q with
      | nil => simp [bfsRun] at hy
      | cons e rest =>
          rw [bfsRun] at hy
          rcases List.mem_append.1 hy with h1 | h2
          · have hx : y ∈ qexts first second e :=
              List.mem_of_mem_filter h1
            exact (qexts_sound first second hf hs e y hx).trans
              (hq e (List.mem_cons_self e rest))
          · refine ih (rest ++ carriedOf first second stop e) ?_ y h2
            intro x hx
            rcases List.mem_append.1 hx with h3 | h4
            · exact hq x (List.mem_cons_of_mem e h3)
            · exact (qexts_sound first second hf hs e x
                (List.mem_of_mem_filter h4)).trans
                (hq e (List.mem_cons_self e rest))

/-- Every `__with_depth` yield is a suffix of the input stream. -/
theorem withDepthYields_sound (first second : MatchF (List Char) (List Char))
    (start : Nat) (stop : Option Nat) (levels : Nat)
    (hf : SoundM first) (hs : SoundM second) (s : List Char) :
    ∀ y ∈ withDepthYields first second start stop levels s,
      List.IsSuffix y.stream s := by
  intro y hy
  unfold withDepthYields at hy
  rcases List.mem_append.1 hy with h1 | h2
  · split at h1
    · simp only [List.mem_singleton] at h1
      subst h1
      exact List.suffix_refl s
    · simp at h1
  · refine bfsRun_sound first second start stop hf hs s _ _ ?_ y h2
    intro e he
    simp only [List.mem_singleton] at he
    subst he
    exact List.suffix_refl s

/-- Membership in the joined buckets after one dictionary insertion. -/
theorem mem_dictInsert_vals {β : Type} :
    ∀ (d : List (Nat × List β)) (k : Nat) (v x : β),
      (∃ kv ∈ dictInsert d k v, x ∈ kv.2) →
      (∃ kv ∈ d, x ∈ kv.2) ∨ x = v := by
  intro d
  induction d with
  | nil =>
      rintro k v x ⟨kv, hkv, hx⟩
      simp only [dictInsert, List.mem_singleton] at hkv
      subst hkv
      simp at hx
      exact Or.inr hx
  | cons kv0 rest ih =>
      rintro k v x ⟨kv, hkv, hx⟩
      simp only [dictInsert] at hkv
      split at hkv
      · rcases List.mem_cons.1 hkv with h1 | h2
        · subst h1
          rcases List.mem_append.1 hx with h3 | h4
          · exact Or.inl ⟨kv0, List.mem_cons_self kv0 rest, h3⟩
          · simp at h4
            exact Or.inr h4
        · exact Or.inl ⟨kv, List.mem_cons_of_mem kv0 h2, hx⟩
      · rcases List.mem_cons.1 hkv with h1 | h2
        · exact Or.inl ⟨kv, by rw [h1]; exact List.mem_cons_self _ _, hx⟩
        · rcases ih k v x ⟨kv, h2, hx⟩ with h3 | h4
          · obtain ⟨kv2, hkv2, hx2⟩ := h3
            exact Or.inl ⟨kv2, List.mem_cons_of_mem kv0 hkv2, hx2⟩
          · exact Or.inr h4

/-- Membership in the joined buckets after folding all insertions. -/
theorem mem_exhaustive_foldl :
    ∀ (l : List (QEntry (List Char) (List Char)))
      (d : List (Nat × List (Attempt (List Char) (List Char))))
      (x : Attempt (List Char) (List Char)),
      (∃ kv ∈ List.foldl
          (fun d e => dictInsert d e.count (e.acc, e.stream)) d l, x ∈ kv.2) →
      (∃ kv ∈ d, x ∈ kv.2) ∨ ∃ e ∈ l, x = (e.acc, e.stream) := by
  intro l
  induction l with
  | nil => intro d x hx; exact Or.inl hx
  | cons e l ih =>
      intro d x hx
      rw [List.foldl_cons] at hx
      rcases ih (dictInsert d e.count (e.acc, e.stream)) x hx with h1 | h2
      · rcases mem_dictInsert_vals d e.count (e.acc, e.stream) x h1 with
          h3 | h4
        · exact Or.inl h3
        · exact Or.inr ⟨e, List.mem_cons_self e l, h4⟩
      · obtain ⟨e2, he2, hx2⟩ := h2
        exact Or.inr ⟨e2, List.mem_cons_of_mem e he2, hx2⟩

/-- Whatever a frame loop yields came from the exhaustion outcome or from
some child subtree. -/
theorem dfIter_mem {σ α : Type}
    (child : List α → σ → List (Attempt σ α) × Bool)
    (ex : List (Attempt σ α) × Bool) (acc : List α) :
    ∀ (atts : List (Attempt σ α)) (p : Attempt σ α),
      p ∈ (dfIter child ex acc atts).1 →
      p ∈ ex.1 ∨ ∃ q ∈ atts, p ∈ (child (acc ++ q.1) q.2).1 := by
  intro atts
  induction atts with
  | nil => intro p hp; exact Or.inl hp
  | cons q rest ih =>
      intro p hp
      simp only [dfIter] at hp
      split at hp
      · exact Or.inr ⟨q, List.mem_cons_self q rest, hp⟩
      · rcases List.mem_append.1 hp with h1 | h2
        · exact Or.inr ⟨q, List.mem_cons_self q rest, h1⟩
        · rcases ih p h2 with h3 | h4
          · exact Or.inl h3
          · obtain ⟨q2, hq2, hp2⟩ := h4
            exact Or.inr ⟨q2, List.mem_cons_of_mem q hq2, hp2⟩

/-- The depth-first stack only yields streams reached through the child
matchers, hence suffixes of `s0`. -/
theorem dfGo_sound (first second : MatchF (List Char) (List Char))
    (start : Nat) (stop : Option Nat) (hf : SoundM first) (hs : SoundM second)
    (s0 : List Char) :
    ∀ (f c : Nat) (acc : List (List Char)) (st : List Char),
      List.IsSuffix st s0 →
      ∀ p ∈ (dfGo first second start stop f c acc st).1,
        List.IsSuffix p.2 s0 := by
  intro f
  induction f with
  | zero => intro c acc st _ p hp; simp [dfGo] at hp
  | succ f ih =>
      intro c acc st hst p hp
      simp only [dfGo] at hp
      split at hp
      · rcases dfIter_mem _ _ _ _ p hp with h1 | h2
        · split at h1
          · simp only [List.mem_singleton] at h1
            subst h1
            exact hst
          · simp at h1
        · obtain ⟨q, hq, hp2⟩ := h2
          exact ih (c + 1) (acc ++ q.1) q.2
            ((sound_matcherAt first second hf hs c st q hq).trans hst) p hp2
      · split at hp
        · simp only [List.mem_singleton] at hp
          subst hp
          exact hst
        · simp at hp

/-- `Repeat.__call__`, all three directions: every yielded attempt leaves a
suffix of the input stream (a raised error or a depth-first hang ends the
sequence after the attempts listed). -/
theorem repeat_sound (first second : MatchF (List Char) (List Char))
    (start : Nat) (stop : Option Nat) (direction : Int) (levels : Nat)
    (hf : SoundM first) (hs : SoundM second) :
    SoundM (fun s =>
      ((repeatEval first second start stop direction levels s).getD
        ([], false)).1) := by
  intro s p hp
  simp only [repeatEval] at hp
  split at hp
  · simp only [Option.getD_some] at hp
    unfold breadthFirstEval at hp
    simp only [List.mem_map] at hp
    obtain ⟨y, hy, rfl⟩ := hp
    exact withDepthYields_sound first second start stop levels hf hs s y hy
  · split at hp
    · unfold depthFirstEval at hp
      split at hp
      · simp at hp
      · simp only [Option.getD_some] at hp
        exact dfGo_sound first second start stop hf hs s _ 0 [] s
          (List.suffix_refl s) p hp
    · simp only [Option.getD_some] at hp
      unfold exhaustiveEval at hp
      simp only [List.mem_flatMap] at hp
      obtain ⟨kv, hkv, hp2⟩ := hp
      have hm : ∃ kv2 ∈ List.foldl
          (fun d e => dictInsert d e.count (e.acc, e.stream)) []
          (withDepthYields first second start stop levels s), p ∈ kv2.2 :=
        ⟨kv, List.mem_reverse.1 hkv, hp2⟩
      rcases mem_exhaustive_foldl _ [] p hm with h1 | h2
      · simp at h1
      · obtain ⟨e, he, rfl⟩ := h2
        exact withDepthYields_sound first second start stop levels hf hs s
          e he

/-- Every matcher of the embedded fragment is suffix-sound. -/
theorem soundEvalMT (t : MT) (fuel : Nat) : SoundM (evalMT fuel t) := by
  cases t with
  | anyT r => simp only [evalMT]; exact sound_any r
  | litT txt => simp only [evalMT]; exact sound_lit txt
  | emptyT => simp only [evalMT]; exact sound_empty
  | andT cs =>
      simp only [evalMT]
      refine sound_and _ ?_
      intro m hm
      obtain ⟨c, hc, rfl⟩ := List.mem_map.1 hm
      exact soundEvalMT c.1 fuel
  | orT cs =>
      simp only [evalMT]
      refine sound_or _ ?_
      intro m hm
      obtain ⟨c, hc, rfl⟩ := List.mem_map.1 hm
      exact soundEvalMT c.1 fuel
  | lookT c n =>
      simp only [evalMT]
      exact sound_look (evalMT fuel c) n
  | applyT c f =>
      simp only [evalMT]
      exact sound_applyRaw (evalMT fuel c) f (soundEvalMT c fuel)
  | kapplyT c f =>
      simp only [evalMT]
      intro s p hp
      simp only [List.mem_map] at hp
      obtain ⟨q, hq, rfl⟩ := hp
      exact soundEvalMT c fuel s q hq
  | repT c sep start stop dir =>
      have hf : SoundM (evalMT fuel c) := soundEvalMT c fuel
      cases sep with
      | none =>
          simp only [evalMT]
          exact repeat_sound (evalMT fuel c) (evalMT fuel c) start stop dir
            fuel hf hf
      | some sp =>
          simp only [evalMT]
          refine repeat_sound (evalMT fuel c) _ start stop dir fuel hf ?_
          refine sound_and _ ?_
          intro m hm
          simp only [List.mem_cons, List.not_mem_nil, or_false] at hm
          rcases hm with rfl | rfl
          · exact soundEvalMT sp fuel
          · exact hf
termination_by sizeOf t
decreasing_by
  all_goals simp_wf
  all_goals try (have h := List.sizeOf_lt_of_mem c.2; omega)
  all_goals omega

/-- Claim C8: for every matcher built from the embedded fragment of the
library's primitives (`Any`, `Literal`, `Empty`, `And`, `Or`, `Lookahead`,
`Repeat` with any direction and optional separator, the `Apply(raw=True)`
family and `KApply`) and every string stream `s`, every attempt `(r, s2)`
it yields has `s2` a suffix of `s`, so the remaining stream's length never
increases. -/
theorem eval_suffix_invariant (fuel : Nat) (t : MT) (s : List Char)
    (r : List (List Char)) (s2 : List Char)
    (h : (r, s2) ∈ evalMT fuel t s) : List.IsSuffix s2 s :=
  soundEvalMT t fuel s (r, s2) h

/-- Claim C8, witness: `Any()` on `"a"` yields `(["a"], "")`, and `[]` is a
suffix of `['a']`. -/
theorem eval_suffix_invariant_witness : List.IsSuffix [] ['a'] :=
  eval_suffix_invariant 0 (MT.anyT none) ['a'] [['a']] []
    (by simp [evalMT, anyEval])

end Lepl
